import Mathlib

/-!
Verification of the OptiQuasar paired-image data-pipeline utilities
(`optibeam/utils.py`, `optibeam/datapipeline.py`, `optibeam/processing.py`)
against their natural-language specification.

Images are modelled as row-major lists of rows (`List (List α)`), matching
the numpy / tensorflow `[H, W]` layout the code slices along.  `mkImage H W f`
builds the rectangular H×W image whose pixel at row `i`, column `j` is `f i j`.
Python / numpy slicing `l[a:b]` on non-negative bounds is `(l.take b).drop a`
(clamping at the length, empty when `a ≥ b`), embedded as `npSlice`.
-/

namespace OptiQuasar

/-- Rectangular H×W image whose pixel at row `i`, column `j` is `f i j`. -/
def mkImage {α : Type} (H W : ℕ) (f : ℕ → ℕ → α) : List (List α) :=
  (List.range H).map (fun i => (List.range W).map (f i))

/-- numpy slice `l[a:b]` for non-negative bounds: clamps at the length,
empty when `a ≥ b`; never an error. -/
def npSlice {α : Type} (l : List α) (a b : ℕ) : List α :=
  (l.take b).drop a

/-- Embedding of `load_and_process_image` (datapipeline.py): the decoded
image is split along its width `w` at `half_width = w / 2`;
`label = image[:, :half_width]` (left half) and `input = image[:, half_width:]`
(right half); the function returns the pair `(input, label)`.  The width
is `tf.shape(image)[1]`, passed here explicitly since a tensor is
rectangular by construction. -/
def load_and_process_image {α : Type} (w : ℕ) (image : List (List α)) :
    List (List α) × List (List α) :=
  let half_width := w / 2
  let label := image.map (fun row => npSlice row 0 half_width)
  let input := image.map (fun row => row.drop half_width)
  (input, label)

/-- Embedding of `combine_functions` (utils.py): `reduce(lambda f, g:
lambda x: g(f(x)), functions)` with the first element as initial value,
and the identity function on the empty list. -/
def combine_functions {α : Type} (functions : List (α → α)) : α → α :=
  match functions with
  | [] => fun x => x
  | f :: fs => fs.foldl (fun f g => fun x => g (f x)) f

lemma split_label_eq {α : Type} (H W w : ℕ) (f : ℕ → ℕ → α) :
    (load_and_process_image w (mkImage H W f)).2
      = (List.range H).map (fun i => (List.range (min (w/2) W)).map (f i)) := by
  simp only [load_and_process_image, npSlice, mkImage, List.map_map, List.drop_zero]
  refine List.map_congr_left (fun i _ => ?_)
  simp only [Function.comp_apply]
  rw [← List.map_take, List.take_range]

lemma split_input_lengths {α : Type} (H W w : ℕ) (f : ℕ → ℕ → α) :
    (load_and_process_image w (mkImage H W f)).1.map List.length
      = List.replicate H (W - w/2) := by
  refine List.eq_replicate_iff.mpr ⟨by simp [load_and_process_image, mkImage], ?_⟩
  intro b hb
  simp only [load_and_process_image, mkImage, List.map_map, List.mem_map,
    List.mem_range, Function.comp_apply] at hb
  obtain ⟨i, -, rfl⟩ := hb
  simp [List.length_drop]

lemma map_range_lengths {α : Type} (H k : ℕ) (f : ℕ → ℕ → α) :
    ((List.range H).map (fun i => (List.range k).map (f i))).map List.length
      = List.replicate H k := by
  refine List.eq_replicate_iff.mpr ⟨by simp, ?_⟩
  intro b hb
  simp only [List.map_map, List.mem_map, List.mem_range, Function.comp_apply] at hb
  obtain ⟨i, -, rfl⟩ := hb
  simp

/-- C1: Split-derivation on an image of even width `2k` yields a target
(left half, columns `0..k-1`) and an input (right half) each of width
exactly `k`; on odd width `2k+1` the target has width `k`, the input has
width `k+1`, and the boundary column (source column `k`) is the input's
first column. -/
theorem split_derivation_widths {α : Type} (H k : ℕ) (f : ℕ → ℕ → α) :
    ((load_and_process_image (2*k) (mkImage H (2*k) f)).2.map List.length
        = List.replicate H k)
    ∧ ((load_and_process_image (2*k) (mkImage H (2*k) f)).1.map List.length
        = List.replicate H k)
    ∧ ((load_and_process_image (2*k+1) (mkImage H (2*k+1) f)).2.map List.length
        = List.replicate H k)
    ∧ ((load_and_process_image (2*k+1) (mkImage H (2*k+1) f)).1.map List.length
        = List.replicate H (k+1))
    ∧ ((load_and_process_image (2*k+1) (mkImage H (2*k+1) f)).2
        = (List.range H).map (fun i => (List.range k).map (f i)))
    ∧ ((load_and_process_image (2*k+1) (mkImage H (2*k+1) f)).1.map (fun r => r[0]?)
        = (List.range H).map (fun i => some (f i k))) := by
  have hk2 : (2*k) / 2 = k := by omega
  have hk21 : (2*k+1) / 2 = k := by omega
  have hlabel2 := split_label_eq H (2*k) (2*k) f
  have hlabel21 := split_label_eq H (2*k+1) (2*k+1) f
  rw [hk2, min_eq_left (by omega)] at hlabel2
  rw [hk21, min_eq_left (by omega)] at hlabel21
  refine ⟨?_, ?_, ?_, ?_, hlabel21, ?_⟩
  · rw [hlabel2, map_range_lengths]
  · rw [split_input_lengths]
    congr 1
    omega
  · rw [hlabel21, map_range_lengths]
  · rw [split_input_lengths]
    congr 1
    omega
  · simp only [load_and_process_image, mkImage, List.map_map]
    refine List.map_congr_left (fun i _ => ?_)
    simp only [Function.comp_apply, hk21]
    rw [List.getElem?_drop, List.getElem?_map,
      List.getElem?_range (by omega : k + 0 < 2*k+1)]
    rfl

/-- C2: transform composition is left-to-right: the empty composition is
the identity, a singleton composition is the function itself, and
`combine_functions [f, g] x = g (f x)`. -/
theorem combine_functions_left_to_right {α : Type} (f g : α → α) (x : α) :
    (combine_functions ([] : List (α → α)) x = x)
    ∧ (combine_functions [f] = f)
    ∧ (combine_functions [f, g] x = g (f x)) :=
  ⟨rfl, rfl, rfl⟩

/-- Embedding of `crop_images` (utils.py): each region `(top_left,
bottom_right)` is cropped by numpy slicing
`image[top_left[1]:bottom_right[1], top_left[0]:bottom_right[0]]`;
there is no validation of the region against the image. -/
def crop_images {α : Type} (image : List (List α))
    (regions : List ((ℕ × ℕ) × (ℕ × ℕ))) : List (List (List α)) :=
  regions.map (fun region =>
    let top_left := region.1
    let bottom_right := region.2
    (npSlice image top_left.2 bottom_right.2).map
      (fun row => npSlice row top_left.1 bottom_right.1))

/-- Embedding of `crop_images_from_clicks` (processing.py): for each pair of
click positions `(top_left, bottom_right)` the rectangle is cropped by the
same numpy slicing `image[top_left[1]:bottom_right[1],
top_left[0]:bottom_right[0]]`, again with no validation. -/
def crop_images_from_clicks {α : Type} (click_list : List ((ℕ × ℕ) × (ℕ × ℕ)))
    (image : List (List α)) : List (List (List α)) :=
  click_list.map (fun click =>
    let top_left := click.1
    let bottom_right := click.2
    (npSlice image top_left.2 bottom_right.2).map
      (fun row => npSlice row top_left.1 bottom_right.1))

lemma crop_rows_lengths {α : Type} (H W x1 y1 x2 y2 : ℕ) (f : ℕ → ℕ → α) :
    ((npSlice (mkImage H W f) y1 y2).map (fun row => npSlice row x1 x2)).map
        List.length
      = List.replicate (min y2 H - y1) (min x2 W - x1) := by
  refine List.eq_replicate_iff.mpr ⟨?_, ?_⟩
  · simp [npSlice, mkImage, List.length_take, List.length_drop]
  · intro b hb
    simp only [List.map_map, List.mem_map, Function.comp_apply] at hb
    obtain ⟨row, hrow, rfl⟩ := hb
    have hmem : row ∈ mkImage H W f :=
      List.mem_of_mem_take (List.mem_of_mem_drop hrow)
    simp only [mkImage, List.mem_map, List.mem_range] at hmem
    obtain ⟨i, -, rfl⟩ := hmem
    simp [npSlice, List.length_take, List.length_drop]

lemma crop_dims {α : Type} (H W x1 y1 x2 y2 : ℕ) (f : ℕ → ℕ → α) :
    (crop_images (mkImage H W f) [((x1, y1), (x2, y2))]).map
        (fun c => (c.length, c.map List.length))
      = [(min y2 H - y1, List.replicate (min y2 H - y1) (min x2 W - x1))] := by
  have hw := crop_rows_lengths H W x1 y1 x2 y2 f
  have hl : ((npSlice (mkImage H W f) y1 y2).map
      (fun row => npSlice row x1 x2)).length = min y2 H - y1 := by
    simp [npSlice, mkImage, List.length_take, List.length_drop]
  simp only [crop_images, List.map_cons, List.map_nil, hl, hw]

/-- C3 (corrected, counterexample): `crop_images` does not reject an
out-of-bounds or degenerate rectangle: on the 2×2 image `[[0,1],[2,3]]` the
requested 5×5 region is silently clamped to the whole 2×2 image (a size
other than requested, with no error), and the degenerate region
`((3,3),(1,1))` yields an empty crop instead of an error. -/
theorem crop_images_counterexample :
    (crop_images [[(0:ℕ), 1], [2, 3]] [((0, 0), (5, 5))]
        = [[[0, 1], [2, 3]]])
    ∧ ((crop_images [[(0:ℕ), 1], [2, 3]] [((0, 0), (5, 5))]).map
        (fun c => (c.length, c.map List.length)) = [(2, [2, 2])])
    ∧ ((2:ℕ) ≠ 5)
    ∧ (crop_images [[(0:ℕ), 1], [2, 3]] [((3, 3), (1, 1))] = [[]]) :=
  ⟨rfl, rfl, by decide, rfl⟩

/-- C3 (amended): crop-derivation never rejects a rectangle: for every
region `((x1,y1),(x2,y2))` on an H×W image, `crop_images` totally returns
one crop whose height is `min y2 H - y1` and whose rows each have width
`min x2 W - x1` (ℕ-truncated) — degenerate rectangles give empty crops and
out-of-bounds rectangles are silently clamped by the slicing, never an
error. -/
theorem crop_images_never_rejects {α : Type} (H W x1 y1 x2 y2 : ℕ)
    (f : ℕ → ℕ → α) :
    (crop_images (mkImage H W f) [((x1, y1), (x2, y2))]).map
        (fun c => (c.length, c.map List.length))
      = [(min y2 H - y1, List.replicate (min y2 H - y1) (min x2 W - x1))] :=
  crop_dims H W x1 y1 x2 y2 f

/-- C4 (corrected, counterexample): the rectangle `((0,0),(3,3))` satisfies
the validity invariant (`0 < 3` in both coordinates), yet cropping it from
a 2×2 image returns a 2×2 sub-image, not the requested 3×3. -/
theorem crop_valid_rect_counterexample :
    ((0:ℕ) < 3 ∧ (0:ℕ) < 3)
    ∧ ((crop_images [[(0:ℕ), 1], [2, 3]] [((0, 0), (3, 3))]).map
        (fun c => (c.length, c.map List.length)) = [(2, [2, 2])])
    ∧ ((2:ℕ) ≠ 3) :=
  ⟨⟨by decide, by decide⟩, rfl, by decide⟩

/-- C4 (amended): for every rectangle with `x1 < x2`, `y1 < y2` that also
lies within the image bounds (`x2 ≤ W`, `y2 ≤ H`), cropping returns a
sub-image of exactly the requested dimensions `(y2 - y1) × (x2 - x1)`;
`crop_images_from_clicks` computes the same crop. -/
theorem crop_valid_inbounds_dims {α : Type} (H W x1 y1 x2 y2 : ℕ)
    (f : ℕ → ℕ → α) (hx : x1 < x2) (hy : y1 < y2) (hxW : x2 ≤ W)
    (hyH : y2 ≤ H) :
    ((crop_images (mkImage H W f) [((x1, y1), (x2, y2))]).map
        (fun c => (c.length, c.map List.length))
      = [(y2 - y1, List.replicate (y2 - y1) (x2 - x1))])
    ∧ (crop_images_from_clicks [((x1, y1), (x2, y2))] (mkImage H W f)
      = crop_images (mkImage H W f) [((x1, y1), (x2, y2))]) := by
  refine ⟨?_, rfl⟩
  rw [crop_dims H W x1 y1 x2 y2 f, min_eq_left hyH, min_eq_left hxW]

/-- Witness for C4's amended theorem at the concrete rectangle
`((1,1),(3,4))` inside a 4×4 image. -/
theorem crop_valid_inbounds_dims_witness :
    ((crop_images (mkImage 4 4 (fun i j => i * 10 + j)) [((1, 1), (3, 4))]).map
        (fun c => (c.length, c.map List.length))
      = [(3, List.replicate 3 2)])
    ∧ (crop_images_from_clicks [((1, 1), (3, 4))]
          (mkImage 4 4 (fun i j => i * 10 + j))
      = crop_images (mkImage 4 4 (fun i j => i * 10 + j)) [((1, 1), (3, 4))]) :=
  crop_valid_inbounds_dims 4 4 1 1 3 4 (fun i j => i * 10 + j)
    (by decide) (by decide) (by decide) (by decide)

/-! ### Guarded execution (`timeout`, utils.py)

The wrapper runs `func` on a worker thread, `join`s for `seconds`, and if
the thread is still alive `join`s for a further `0.1`-second grace period;
it then re-raises a recorded exception if there is one and otherwise raises
`TimeoutError`.  If the thread finished within `seconds` it returns
`result[0]`, which is the function's value or, if the function raised, the
caught exception object itself.  Wall-clock time is modelled discretely in
tenths of a second: `duration` is how long `func` runs, `seconds` the bound
passed to the decorator (so the grace period is `1` tick), and `func`'s own
behaviour is an `Except ε α` (normal return or raised exception). -/

/-- The four ways the wrapped call can come back to the caller. -/
inductive CallerResult (α ε : Type) : Type
  | ret (v : α)      -- wrapper returns the function's value
  | retExn (e : ε)   -- wrapper returns the caught exception object as a value
  | raised (e : ε)   -- wrapper re-raises the recorded exception
  | timedOut         -- wrapper raises TimeoutError
  deriving DecidableEq

/-- Embedding of the `timeout(seconds)` wrapper body (utils.py), with time
in tenths of a second. -/
def timeoutWrapper {α ε : Type} (seconds duration : ℕ) (outcome : Except ε α) :
    CallerResult α ε :=
  if duration ≤ seconds then
    -- thread no longer alive after `thread.join(seconds)`
    match outcome with
    | .ok v => .ret v
    | .error e => .retExn e
  else if duration ≤ seconds + 1 then
    -- thread finished during the extra `thread.join(0.1)`
    match outcome with
    | .error e => .raised e   -- `isinstance(result[0], Exception)` branch
    | .ok _ => .timedOut
  else
    -- `result[0]` still `None`
    .timedOut

/-- C6 (corrected, counterexample): with a bound of 1.0 s, a function that
raises exception `3` at 1.1 s has not returned within the bound, yet the
caller receives that exception re-raised — not `TimeoutError`. -/
theorem timeout_counterexample :
    (timeoutWrapper 10 11 (Except.error 3) = (CallerResult.raised 3 : CallerResult ℕ ℕ))
    ∧ ((CallerResult.raised 3 : CallerResult ℕ ℕ) ≠ CallerResult.timedOut) :=
  ⟨rfl, by decide⟩

/-- C6 (amended): when `func` returns normally within `seconds` the caller
receives its value; when `func` has neither returned nor raised by
`seconds + 0.1` the caller receives `TimeoutError`; in the 0.1 s grace
window after the bound, a normal return is still reported as
`TimeoutError`, but a raised exception is re-raised in place of
`TimeoutError`. -/
theorem timeout_outcomes {α ε : Type} (s d : ℕ) (v : α) (e : ε)
    (o : Except ε α) :
    (d ≤ s → timeoutWrapper s d (Except.ok v) = (CallerResult.ret v : CallerResult α ε))
    ∧ (s + 1 < d → timeoutWrapper s d o = CallerResult.timedOut)
    ∧ (s < d → d ≤ s + 1 →
        timeoutWrapper s d (Except.ok v) = (CallerResult.timedOut : CallerResult α ε))
    ∧ (s < d → d ≤ s + 1 →
        timeoutWrapper s d (Except.error e) = (CallerResult.raised e : CallerResult α ε)) := by
  refine ⟨fun h => ?_, fun h => ?_, fun h1 h2 => ?_, fun h1 h2 => ?_⟩
  · simp [timeoutWrapper, h]
  · have h1 : ¬ d ≤ s := by omega
    have h2 : ¬ d ≤ s + 1 := by omega
    simp [timeoutWrapper, h1, h2]
  · have h3 : ¬ d ≤ s := by omega
    simp [timeoutWrapper, h3, h2]
  · have h3 : ¬ d ≤ s := by omega
    simp [timeoutWrapper, h3, h2]

/-- Witness for C6's amended theorem: each arm instantiated at concrete
times (bound 0.5 s; durations 0.3 s, 0.8 s, 0.6 s). -/
theorem timeout_outcomes_witness :
    (timeoutWrapper 5 3 (Except.ok 7) = (CallerResult.ret 7 : CallerResult ℕ ℕ))
    ∧ (timeoutWrapper 5 8 (Except.ok 7) = (CallerResult.timedOut : CallerResult ℕ ℕ))
    ∧ (timeoutWrapper 5 6 (Except.ok 7) = (CallerResult.timedOut : CallerResult ℕ ℕ))
    ∧ (timeoutWrapper 5 6 (Except.error 2) = (CallerResult.raised 2 : CallerResult ℕ ℕ)) :=
  ⟨(timeout_outcomes 5 3 7 2 (Except.ok 7)).1 (by decide),
   (timeout_outcomes 5 8 7 2 (Except.ok 7)).2.1 (by decide),
   (timeout_outcomes 5 6 7 2 (Except.ok 7)).2.2.1 (by decide) (by decide),
   (timeout_outcomes 5 6 7 2 (Except.ok 7)).2.2.2 (by decide) (by decide)⟩

/-- C10: if the wrapped function raises within the bound, the wrapper
returns the caught exception object to the caller as its result value
instead of re-raising it; the recorded exception is re-raised only when
the timeout elapses before the function finishes. -/
theorem timeout_returns_exception {α ε : Type} (s d : ℕ) (e : ε)
    (o : Except ε α) :
    (d ≤ s → timeoutWrapper s d (Except.error e : Except ε α) = CallerResult.retExn e)
    ∧ (∀ e' : ε, timeoutWrapper s d o = CallerResult.raised e' → s < d) := by
  constructor
  · intro h
    simp [timeoutWrapper, h]
  · intro e' h
    by_contra hns
    have hle : d ≤ s := by omega
    simp only [timeoutWrapper, if_pos hle] at h
    cases o <;> simp_all

/-- Witness for C10's theorem: a function that raises exception `2` at
0.3 s under a 0.5 s bound has the exception returned, not raised; and a
raise observed at 0.6 s shows the re-raise only happens past the bound. -/
theorem timeout_returns_exception_witness :
    (timeoutWrapper 5 3 (Except.error 2 : Except ℕ ℕ) = CallerResult.retExn 2)
    ∧ (5 < 6) :=
  ⟨(timeout_returns_exception 5 3 2 (Except.error 2 : Except ℕ ℕ)).1 (by decide),
   (timeout_returns_exception 5 6 2 (Except.error 2 : Except ℕ ℕ)).2 2 rfl⟩

/-! ### Parallel map (`process_list_in_parallel` / `apply_multiprocess`, utils.py)

Both utilities hand the item list to a worker pool (`pool.map` /
`pool.imap`) whose tasks execute in an arbitrary order across workers,
while each result is stored in the slot of its item's index and the slots
are read back in index order.  The pool is embedded as a slot store
`ℕ → Option β` written by the tasks in an arbitrary schedule order
(`sched`, a permutation of the item indices) and collected in index
order. -/

/-- One pool execution: the tasks run in the order given by `sched`, each
task `i` computing `function` on item `i` and writing the result into
slot `i` of the store. -/
def execSched {α β : Type} (function : α → β) (data_list : List α)
    (sched : List ℕ) : ℕ → Option β :=
  sched.foldl
    (fun store i => fun j => if j = i then (data_list.get? i).map function else store j)
    (fun _ => none)

/-- Reading the result slots back in input-index order. -/
def collectSlots {β : Type} (store : ℕ → Option β) (n : ℕ) : List (Option β) :=
  (List.range n).map store

/-- Embedding of `process_list_in_parallel` (and of `apply_multiprocess`'s
`pool.imap` collection): run the tasks under an arbitrary schedule and
return the slots in input order. -/
def process_list_in_parallel {α β : Type} (function : α → β)
    (data_list : List α) (sched : List ℕ) : List (Option β) :=
  collectSlots (execSched function data_list sched) data_list.length

lemma execSched_lookup {α β : Type} (function : α → β) (data_list : List α)
    (sched : List ℕ) (store : ℕ → Option β) (j : ℕ) :
    (sched.foldl
        (fun store i => fun j =>
          if j = i then (data_list.get? i).map function else store j)
        store) j
      = if j ∈ sched then (data_list.get? j).map function else store j := by
  induction sched generalizing store with
  | nil => simp
  | cons i rest ih =>
    simp only [List.foldl_cons, ih, List.mem_cons]
    by_cases hr : j ∈ rest
    · simp [hr]
    · by_cases hji : j = i
      · subst hji
        simp [hr]
      · simp [hr, hji]

lemma collect_get_map {α β : Type} (function : α → β) (l : List α) :
    (List.range l.length).map (fun j => (l.get? j).map function)
      = l.map (fun x => some (function x)) := by
  induction l with
  | nil => simp
  | cons x xs ih =>
    simp only [List.length_cons, List.range_succ_eq_map, List.map_cons,
      List.map_map]
    refine congrArg₂ List.cons rfl ?_
    rw [← ih]
    refine List.map_congr_left (fun j _ => ?_)
    simp [Function.comp]

/-- C5: whatever order the workers execute the tasks in (`sched` is any
permutation of the item indices), the list returned to the caller equals,
element for element and in input order, the sequential map of the function
over the items. -/
theorem parallel_map_preserves_order {α β : Type} (function : α → β)
    (data_list : List α) (sched : List ℕ)
    (hperm : sched.Perm (List.range data_list.length)) :
    process_list_in_parallel function data_list sched
      = data_list.map (fun x => some (function x)) := by
  unfold process_list_in_parallel collectSlots execSched
  rw [← collect_get_map function data_list]
  refine List.map_congr_left (fun j hj => ?_)
  rw [execSched_lookup]
  have hmem : j ∈ sched := hperm.mem_iff.mpr hj
  simp [hmem]

/-- Witness for C5: three items executed in the schedule `[2, 0, 1]`
still come back in input order. -/
theorem parallel_map_preserves_order_witness :
    process_list_in_parallel (fun n => n + 1) [10, 20, 30] [2, 0, 1]
      = [some 11, some 21, some 31] :=
  parallel_map_preserves_order (fun n => n + 1) [10, 20, 30] [2, 0, 1]
    (by decide)

/-! ### Streaming pipeline (`tf_dataset_prep` and `DataPipeline.data_pipeline`,
datapipeline.py)

`tf_dataset_prep` builds a finite `tf.data` dataset from the path list:
`map(func)` over the paths and `batch(batch_size)` with the default
`drop_remainder=False`, i.e. consecutive groups of `batch_size` elements
with a shorter final group kept.  Batching is embedded as `tfBatch`;
shuffling only permutes the path list before the map and is not modelled
(the batch-shape and termination claims are invariant under it).  The
batch size is written `b + 1` so that all positive sizes are covered.

The legacy `DataPipeline.data_pipeline` generator sits in a `while True:`
loop around `self.df.iterrows()`: after the last row it starts over at the
first row and never raises `StopIteration`.  Its control state is the index
of the next row to yield; `dataPipelineNext` performs one yield
(per-sample, the `is_batch=False` branch — per-sample processing is
abstracted as `g`), and `dataPipelinePulls rows g idx n` is the value of the
`(n+1)`-th pull starting from state `idx`.  On an empty manifest the loop
spins forever producing nothing, embedded as `none`. -/

/-- Consecutive groups of `b` elements, shorter final group kept: the
semantics of `dataset.batch(b)` with `drop_remainder=False`. -/
def tfBatch {α : Type} : ℕ → List α → List (List α)
  | _, [] => []
  | 0, _ :: _ => []
  | b + 1, x :: xs => (x :: xs.take b) :: tfBatch (b + 1) (xs.drop b)
termination_by b l => l.length
decreasing_by simp [List.length_drop]; omega

/-- Embedding of `tf_dataset_prep` (datapipeline.py) without shuffling:
map the processing function over the paths, then batch. -/
def tf_dataset_prep {α β : Type} (data_dirs : List α) (func : α → β)
    (batch_size : ℕ) : List (List β) :=
  tfBatch batch_size (data_dirs.map func)

lemma tfBatch_nil {α : Type} (b : ℕ) : tfBatch b ([] : List α) = [] := by
  cases b <;> simp [tfBatch]

lemma tfBatch_cons {α : Type} (b : ℕ) (x : α) (xs : List α) :
    tfBatch (b + 1) (x :: xs)
      = (x :: xs).take (b + 1) :: tfBatch (b + 1) ((x :: xs).drop (b + 1)) := by
  simp [tfBatch]

lemma tfBatch_join_aux {α : Type} (b : ℕ) :
    ∀ n (l : List α), l.length ≤ n → (tfBatch (b + 1) l).flatten = l := by
  intro n
  induction n with
  | zero =>
    intro l hl
    have : l = [] := List.eq_nil_of_length_eq_zero (by omega)
    subst this
    simp [tfBatch_nil]
  | succ n ih =>
    intro l hl
    match l with
    | [] => simp [tfBatch_nil]
    | x :: xs =>
      rw [tfBatch_cons, List.flatten_cons,
        ih _ (by simp [List.length_drop]; simp at hl; omega),
        List.take_append_drop]

lemma tfBatch_length_aux {α : Type} (b : ℕ) :
    ∀ n (l : List α), l.length ≤ n →
      (tfBatch (b + 1) l).length = (l.length + b) / (b + 1) := by
  intro n
  induction n with
  | zero =>
    intro l hl
    have : l = [] := List.eq_nil_of_length_eq_zero (by omega)
    subst this
    simp [tfBatch_nil, Nat.div_eq_of_lt (by omega : b < b + 1)]
  | succ n ih =>
    intro l hl
    match l with
    | [] => simp [tfBatch_nil, Nat.div_eq_of_lt (by omega : b < b + 1)]
    | x :: xs =>
      rw [tfBatch_cons]
      rcases Nat.lt_or_ge xs.length b with hm | hm
      · have hdrop : (x :: xs).drop (b + 1) = [] :=
          List.drop_eq_nil_of_le (by simp; omega)
        rw [hdrop, tfBatch_nil]
        have : ((x :: xs).length + b) / (b + 1) = 1 := by
          refine Nat.div_eq_of_lt_le (by simp; omega) (by simp; omega)
        simp only [List.length_cons, this, List.length_nil]
        simp at this ⊢
        omega
      · have hlen : ((x :: xs).drop (b + 1)).length = xs.length - b := by
          simp [List.length_drop]
        simp only [List.length_cons]
        rw [ih _ (by simp at hl ⊢; omega), hlen]
        have hsplit : xs.length + 1 + b = (xs.length - b + b) + (b + 1) := by omega
        rw [hsplit, Nat.add_div_right _ (by omega : 0 < b + 1)]

lemma tfBatch_map_length_aux {α : Type} (b : ℕ) :
    ∀ n (l : List α), l.length ≤ n →
      (tfBatch (b + 1) l).map List.length
        = List.replicate (l.length / (b + 1)) (b + 1)
          ++ (if l.length % (b + 1) = 0 then []
              else [l.length % (b + 1)]) := by
  intro n
  induction n with
  | zero =>
    intro l hl
    have : l = [] := List.eq_nil_of_length_eq_zero (by omega)
    subst this
    simp [tfBatch_nil]
  | succ n ih =>
    intro l hl
    match l with
    | [] => simp [tfBatch_nil]
    | x :: xs =>
      rw [tfBatch_cons, List.map_cons]
      rcases Nat.lt_or_ge xs.length b with hm | hm
      · have hdrop : (x :: xs).drop (b + 1) = [] :=
          List.drop_eq_nil_of_le (by simp; omega)
        rw [hdrop, tfBatch_nil, List.map_nil]
        rcases Nat.lt_or_ge (xs.length + 1) (b + 1) with hlt | hge
        · rw [List.length_cons, Nat.div_eq_of_lt (by omega),
            Nat.mod_eq_of_lt (by omega)]
          have hne : ¬ xs.length + 1 = 0 := by omega
          simp [hne, List.length_take]
          omega
        · have heq : xs.length + 1 = b + 1 := by omega
          rw [List.length_cons, heq, Nat.div_self (by omega),
            Nat.mod_self]
          simp [List.length_take]
          omega
      · have hlen : ((x :: xs).drop (b + 1)).length = xs.length - b := by
          simp [List.length_drop]
        rw [ih _ (by simp at hl ⊢; omega), hlen, List.length_cons]
        have hsplit : xs.length + 1 = (xs.length - b) + (b + 1) := by omega
        rw [hsplit, Nat.add_div_right _ (by omega : 0 < b + 1),
          Nat.add_mod_right, List.replicate_succ, List.cons_append]
        have htake : ((x :: xs).take (b + 1)).length = b + 1 := by
          simp [List.length_take]
          omega
        rw [htake]

/-- The batched branch of the legacy generator (`is_batch=True`): from
row-cursor `idx` with the pending accumulator `batch_x`, keep consuming
rows — wrapping to row `0` after the last one, as the `while True:` does —
appending each processed row to `batch_x`, and yield the accumulated batch
as soon as `len(batch_x) >= batch_size`.  The accumulator gains one element
per consumed row, so `bsz + 1` fuel always suffices; `none` is the
non-yielding infinite spin on an empty manifest. -/
def batchPipelineGo {ρ σ : Type} (rows : List ρ) (g : ρ → σ) (bsz : ℕ) :
    ℕ → ℕ → List σ → Option (List σ × (ℕ × List σ))
  | 0, _, _ => none
  | fuel + 1, idx, acc =>
    match rows[idx]? with
    | none => none
    | some row =>
      let batch_x := acc ++ [g row]
      let idxn := if idx + 1 = rows.length then 0 else idx + 1
      if bsz ≤ batch_x.length then some (batch_x, (idxn, []))
      else batchPipelineGo rows g bsz fuel idxn batch_x

/-- One batched yield of the legacy generator. -/
def batchPipelineNext {ρ σ : Type} (rows : List ρ) (g : ρ → σ) (bsz idx : ℕ)
    (acc : List σ) : Option (List σ × (ℕ × List σ)) :=
  batchPipelineGo rows g bsz (bsz + 1) idx acc

/-- Value of the `(n+1)`-th batch pull of the legacy generator starting
from row-cursor `idx` and pending accumulator `acc`. -/
def batchPipelinePulls {ρ σ : Type} (rows : List ρ) (g : ρ → σ) (bsz : ℕ) :
    ℕ → List σ → ℕ → Option (List σ)
  | idx, acc, 0 => (batchPipelineNext rows g bsz idx acc).map Prod.fst
  | idx, acc, n + 1 =>
    match batchPipelineNext rows g bsz idx acc with
    | some p => batchPipelinePulls rows g bsz p.2.1 p.2.2 n
    | none => none

lemma batchPipelineGo_full {ρ σ : Type} (rows : List ρ) (g : ρ → σ) (b : ℕ) :
    ∀ fuel idx (acc : List σ), idx < rows.length → acc.length < b + 1 →
      b + 1 ≤ acc.length + fuel →
      ∃ batch idxn, batchPipelineGo rows g (b + 1) fuel idx acc
          = some (batch, (idxn, []))
        ∧ batch.length = b + 1 ∧ idxn < rows.length := by
  intro fuel
  induction fuel with
  | zero =>
    intro idx acc _ hlen hfuel
    omega
  | succ fuel ih =>
    intro idx acc hidx hlen hfuel
    have hidxn : (if idx + 1 = rows.length then 0 else idx + 1) < rows.length := by
      split
      · omega
      · omega
    have hlenapp : (acc ++ [g rows[idx]]).length = acc.length + 1 := by simp
    by_cases hb : b + 1 ≤ (acc ++ [g rows[idx]]).length
    · refine ⟨acc ++ [g rows[idx]],
        if idx + 1 = rows.length then 0 else idx + 1, ?_, ?_, hidxn⟩
      · simp only [batchPipelineGo, List.getElem?_eq_getElem hidx]
        rw [if_pos hb]
      · rw [hlenapp] at hb ⊢
        omega
    · have hlt : (acc ++ [g rows[idx]]).length < b + 1 := Nat.lt_of_not_le hb
      obtain ⟨batch, idxn, heq, hblen, hidxn'⟩ :=
        ih (if idx + 1 = rows.length then 0 else idx + 1) (acc ++ [g rows[idx]])
          hidxn hlt (by rw [hlenapp]; omega)
      refine ⟨batch, idxn, ?_, hblen, hidxn'⟩
      simp only [batchPipelineGo, List.getElem?_eq_getElem hidx]
      rw [if_neg hb]
      exact heq

lemma batchPipelinePulls_full {ρ σ : Type} (rows : List ρ) (g : ρ → σ) (b : ℕ) :
    ∀ n idx, idx < rows.length →
      ∃ batch, batchPipelinePulls rows g (b + 1) idx [] n = some batch
        ∧ batch.length = b + 1 := by
  intro n
  induction n with
  | zero =>
    intro idx hidx
    obtain ⟨batch, idxn, heq, hblen, -⟩ :=
      batchPipelineGo_full rows g b (b + 2) idx [] hidx (by simp) (by simp)
    exact ⟨batch, by simp [batchPipelinePulls, batchPipelineNext, heq], hblen⟩
  | succ n ih =>
    intro idx hidx
    obtain ⟨batch, idxn, heq, -, hidxn⟩ :=
      batchPipelineGo_full rows g b (b + 2) idx [] hidx (by simp) (by simp)
    obtain ⟨batch2, heq2, hblen2⟩ := ih idxn hidxn
    exact ⟨batch2, by simp [batchPipelinePulls, batchPipelineNext, heq, heq2], hblen2⟩

lemma batchPipelinePulls_nil {ρ σ : Type} (g : ρ → σ) (bsz idx : ℕ)
    (acc : List σ) (n : ℕ) :
    batchPipelinePulls ([] : List ρ) g bsz idx acc n = none := by
  cases n <;> simp [batchPipelinePulls, batchPipelineNext, batchPipelineGo]

/-- C8 (corrected, counterexample): on the three-row manifest `[10,20,30]`
with batch size 2 the legacy generator's second batch is `[30, 10]` — full
size, joining the epoch's last row with the restarted first row — so the
keep-partial final batch `[30]` of size `3 % 2 = 1` is never emitted and
one pass over the manifest does not yield `ceil(3/2) = 2` batches. -/
theorem legacy_batch_mixes_epochs :
    (batchPipelinePulls [10, 20, 30] (fun r => r) 2 0 [] 0 = some [10, 20])
    ∧ (batchPipelinePulls [10, 20, 30] (fun r => r) 2 0 [] 1 = some [30, 10])
    ∧ (batchPipelinePulls [10, 20, 30] (fun r => r) 2 0 [] 1 ≠ some [30]) :=
  ⟨rfl, rfl, by decide⟩

/-- C8 (amended): with batch size `b+1`, every batch produced by
`tf_dataset_prep` contains exactly `b+1` samples except possibly the final
batch of the epoch, which is still emitted with the remaining
`m % (b+1)` samples (keep-partial), so an epoch over `m` samples yields
`ceil(m/(b+1))` batches and concatenating them recovers every processed
sample; the legacy `DataPipeline.data_pipeline` generator, however, only
ever delivers batches of exactly `b+1` samples — an epoch's remainder is
never emitted as a partial batch but spills across the `while True:`
restart. -/
theorem batch_sizes_and_count {α β ρ σ : Type} (b : ℕ) (data_dirs : List α)
    (func : α → β) (rows : List ρ) (g : ρ → σ) :
    ((tf_dataset_prep data_dirs func (b + 1)).length
        = (data_dirs.length + b) / (b + 1))
    ∧ ((tf_dataset_prep data_dirs func (b + 1)).map List.length
        = List.replicate (data_dirs.length / (b + 1)) (b + 1)
          ++ (if data_dirs.length % (b + 1) = 0 then []
              else [data_dirs.length % (b + 1)]))
    ∧ ((tf_dataset_prep data_dirs func (b + 1)).flatten = data_dirs.map func)
    ∧ (∀ n (batch : List σ),
        batchPipelinePulls rows g (b + 1) 0 [] n = some batch →
          batch.length = b + 1) := by
  unfold tf_dataset_prep
  have hlen : (data_dirs.map func).length = data_dirs.length := by simp
  refine ⟨?_, ?_, tfBatch_join_aux b _ _ le_rfl, ?_⟩
  · rw [tfBatch_length_aux b _ _ le_rfl, hlen]
  · rw [tfBatch_map_length_aux b _ _ le_rfl, hlen]
  · intro n batch heq
    match rows with
    | [] => rw [batchPipelinePulls_nil] at heq; cases heq
    | r :: rs =>
      obtain ⟨batch2, heq2, hblen2⟩ :=
        batchPipelinePulls_full (r :: rs) g b n 0 (by simp)
      rw [heq] at heq2
      cases heq2
      exact hblen2

/-- Witness for C8's amended theorem: five paths with batch size 2 give
batches of sizes `[2, 2, 1]` on the tf side, and the legacy generator's
second batch over a three-row manifest has size exactly 2. -/
theorem batch_sizes_and_count_witness :
    ((tf_dataset_prep [1, 2, 3, 4, 5] (fun n => n * 2) 2).map List.length
        = [2, 2, 1])
    ∧ (([30, 10] : List ℕ).length = 2) := by
  constructor
  · have h := (batch_sizes_and_count 1 [1, 2, 3, 4, 5] (fun n => n * 2)
      ([10, 20, 30] : List ℕ) (fun r => r)).2.1
    simpa using h
  · exact (batch_sizes_and_count 1 [1, 2, 3, 4, 5] (fun n => n * 2)
      ([10, 20, 30] : List ℕ) (fun r => r)).2.2.2 1 [30, 10] rfl

/-- One yield of the legacy generator from row-cursor `idx`: produce the
processed row and the next cursor, wrapping to `0` after the last row
(the enclosing `while True:`). -/
def dataPipelineNext {ρ σ : Type} (rows : List ρ) (g : ρ → σ) (idx : ℕ) :
    Option (σ × ℕ) :=
  match rows[idx]? with
  | some row => some (g row, if idx + 1 = rows.length then 0 else idx + 1)
  | none => none

/-- Value of the `(n+1)`-th pull of the legacy generator starting from
row-cursor `idx`. -/
def dataPipelinePulls {ρ σ : Type} (rows : List ρ) (g : ρ → σ) :
    ℕ → ℕ → Option σ
  | idx, 0 => (dataPipelineNext rows g idx).map Prod.fst
  | idx, n + 1 =>
    match dataPipelineNext rows g idx with
    | some p => dataPipelinePulls rows g p.2 n
    | none => none

lemma isSome_get_iff {α : Type} (l : List α) (i : ℕ) :
    l[i]?.isSome = true ↔ i < l.length := by
  constructor
  · intro h
    by_contra hlt
    rw [List.getElem?_eq_none (by omega)] at h
    simp at h
  · intro h
    rw [List.getElem?_eq_getElem h]
    rfl

lemma dataPipelinePulls_isSome {ρ σ : Type} (rows : List ρ) (g : ρ → σ) :
    ∀ n idx, idx < rows.length →
      (dataPipelinePulls rows g idx n).isSome = true := by
  intro n
  induction n with
  | zero =>
    intro idx hidx
    simp [dataPipelinePulls, dataPipelineNext, List.getElem?_eq_getElem hidx]
  | succ n ih =>
    intro idx hidx
    rw [dataPipelinePulls, dataPipelineNext, List.getElem?_eq_getElem hidx]
    by_cases hwrap : idx + 1 = rows.length
    · simpa [hwrap] using ih 0 (by omega)
    · simpa [hwrap] using ih (idx + 1) (by omega)

/-- C7 (corrected, counterexample): on the two-row manifest `[10, 20]` the
legacy generator's first two pulls deliver both samples, yet the third
pull delivers the first sample again — the manifest is restarted from the
beginning, and no end-of-epoch signal is ever produced. -/
theorem legacy_pipeline_restarts :
    (dataPipelinePulls [10, 20] (fun r => r) 0 0 = some 10)
    ∧ (dataPipelinePulls [10, 20] (fun r => r) 0 1 = some 20)
    ∧ (dataPipelinePulls [10, 20] (fun r => r) 0 2 = some 10)
    ∧ (dataPipelinePulls [10, 20] (fun r => r) 0 2 ≠ none) :=
  ⟨rfl, rfl, rfl, by decide⟩

/-- C7 (amended): the tf.data pipeline does terminate after one epoch —
over `m` paths with batch size `b+1`, exactly the first `ceil(m/(b+1))`
pulls deliver a batch and every later pull reports end of sequence — but
the legacy `DataPipeline.data_pipeline` generator never terminates: on any
nonempty manifest every pull delivers a sample, cycling through the
manifest indefinitely with no end-of-epoch signal. -/
theorem epoch_termination {ρ σ α β : Type} (rows : List ρ) (g : ρ → σ)
    (b : ℕ) (data_dirs : List α) (func : α → β) :
    (∀ i : ℕ, ((tf_dataset_prep data_dirs func (b + 1))[i]?).isSome = true
        ↔ i < (data_dirs.length + b) / (b + 1))
    ∧ (rows ≠ [] → ∀ n, (dataPipelinePulls rows g 0 n).isSome = true) := by
  constructor
  · intro i
    rw [isSome_get_iff]
    unfold tf_dataset_prep
    rw [tfBatch_length_aux b _ _ le_rfl]
    simp
  · intro hne n
    refine dataPipelinePulls_isSome rows g n 0 ?_
    cases rows with
    | nil => exact absurd rfl hne
    | cons x xs => simp

/-- Witness for C7's amended theorem on a five-path manifest with batch
size 2 and a three-row legacy manifest. -/
theorem epoch_termination_witness :
    ((((tf_dataset_prep [1, 2, 3, 4, 5] (fun n => n * 2) 2)[2]?).isSome = true
        ↔ (2:ℕ) < 3)
      ∧ ((((tf_dataset_prep [1, 2, 3, 4, 5] (fun n => n * 2) 2)[3]?).isSome = true)
        ↔ (3:ℕ) < 3))
    ∧ (dataPipelinePulls [7, 8, 9] (fun r => r + 1) 0 5).isSome = true :=
  ⟨⟨((epoch_termination [7, 8, 9] (fun r => r + 1) 1 [1, 2, 3, 4, 5]
        (fun n => n * 2)).1 2),
    ((epoch_termination [7, 8, 9] (fun r => r + 1) 1 [1, 2, 3, 4, 5]
        (fun n => n * 2)).1 3)⟩,
   (epoch_termination [7, 8, 9] (fun r => r + 1) 1 [1, 2, 3, 4, 5]
        (fun n => n * 2)).2 (by decide) 5⟩

/-! ### Manifest resolution (`get_all_file_paths`, utils.py)

The walk `os.walk(dir)` is an input of the embedding: for each requested
directory, a list of `(root, files)` entries in whatever order the
filesystem enumerates them.  File and directory names are lists of
character codes (`List ℕ`), `os.path.join` inserts the separator code `0`,
and `os.path.abspath` is the identity (roots are taken absolute).  The
Python filter `any(type in file for type in types)` is a substring test,
embedded as `listInfixB`.  `pathLeB` is the lexicographic order on paths
that "sorted by path" refers to, and `pathsSortedB` checks a list is
sorted under it. -/

def listPrefixB {α : Type} [DecidableEq α] : List α → List α → Bool
  | [], _ => true
  | _ :: _, [] => false
  | a :: as, b :: bs => a == b && listPrefixB as bs

def listInfixB {α : Type} [DecidableEq α] (p : List α) : List α → Bool
  | [] => listPrefixB p []
  | b :: bs => listPrefixB p (b :: bs) || listInfixB p bs

def pathJoin (root file : List ℕ) : List ℕ := root ++ 0 :: file

/-- Embedding of `get_all_file_paths` (utils.py): nested loops over the
directories, their walk entries and the files of each entry, appending the
joined path of every file that matches some type substring. -/
def get_all_file_paths (walks : List (List (List ℕ × List (List ℕ))))
    (types : List (List ℕ)) : List (List ℕ) :=
  walks.foldl (fun acc walk =>
    walk.foldl (fun acc entry =>
      entry.2.foldl (fun acc file =>
        if types.any (fun t => listInfixB t file) then acc ++ [pathJoin entry.1 file]
        else acc) acc) acc) []

/-- Lexicographic order on paths of character codes. -/
def pathLeB : List ℕ → List ℕ → Bool
  | [], _ => true
  | _ :: _, [] => false
  | a :: as, b :: bs => if a < b then true else if b < a then false else pathLeB as bs

def pathsSortedB : List (List ℕ) → Bool
  | [] => true
  | [_] => true
  | p :: q :: rest => pathLeB p q && pathsSortedB (q :: rest)

lemma foldl_filter_append {γ δ : Type} (P : γ → Bool) (g : γ → δ) :
    ∀ (l : List γ) (acc : List δ),
      l.foldl (fun acc x => if P x then acc ++ [g x] else acc) acc
        = acc ++ (l.filter P).map g := by
  intro l
  induction l with
  | nil => intro acc; simp
  | cons x xs ih =>
    intro acc
    by_cases hP : P x
    · simp [List.foldl_cons, hP, ih, List.filter_cons]
    · simp [List.foldl_cons, hP, ih, List.filter_cons]

lemma foldl_append_flatten {γ δ : Type} (h : γ → List δ) :
    ∀ (l : List γ) (acc : List δ),
      l.foldl (fun acc x => acc ++ h x) acc = acc ++ (l.map h).flatten := by
  intro l
  induction l with
  | nil => intro acc; simp
  | cons x xs ih =>
    intro acc
    simp [List.foldl_cons, ih, List.append_assoc]

/-- C9 (corrected, counterexample): with the walk of one directory `[114]`
("r") listing its files in the order `[[98], [97]]` ("b" before "a", as the
filesystem may), resolution returns `[r/b, r/a]` — the walk order, which is
not sorted by path. -/
theorem manifest_not_sorted :
    (get_all_file_paths [[([114], [[98], [97]])]] [[]]
        = [[114, 0, 98], [114, 0, 97]])
    ∧ (pathsSortedB (get_all_file_paths [[([114], [[98], [97]])]] [[]]) = false) :=
  ⟨rfl, rfl⟩

/-- C9 (amended): manifest resolution is deterministic only as a function
of the walk enumeration, and returns the matching joined paths exactly in
walk order (directories in request order, entries in walk order, files in
listing order, filtered by the substring types) — it does not sort them. -/
theorem manifest_walk_order (walks : List (List (List ℕ × List (List ℕ))))
    (types : List (List ℕ)) :
    get_all_file_paths walks types
      = (walks.map (fun walk =>
          (walk.map (fun entry =>
            (entry.2.filter (fun file => types.any (fun t => listInfixB t file))).map
              (pathJoin entry.1))).flatten)).flatten := by
  unfold get_all_file_paths
  have hinner : ∀ (walk : List (List ℕ × List (List ℕ))) (acc : List (List ℕ)),
      walk.foldl (fun acc entry =>
          entry.2.foldl (fun acc file =>
            if types.any (fun t => listInfixB t file)
            then acc ++ [pathJoin entry.1 file] else acc) acc) acc
        = acc ++ (walk.map (fun entry =>
            (entry.2.filter (fun file => types.any (fun t => listInfixB t file))).map
              (pathJoin entry.1))).flatten := by
    intro walk acc
    have hfun : (fun (acc : List (List ℕ)) (entry : List ℕ × List (List ℕ)) =>
        entry.2.foldl (fun acc file =>
          if types.any (fun t => listInfixB t file)
          then acc ++ [pathJoin entry.1 file] else acc) acc)
      = fun acc entry => acc ++
          ((entry.2.filter (fun file => types.any (fun t => listInfixB t file))).map
            (pathJoin entry.1)) := by
      funext acc' entry
      exact foldl_filter_append _ _ _ acc'
    rw [hfun, foldl_append_flatten]
  have houter : ∀ acc : List (List ℕ),
      walks.foldl (fun acc walk =>
          walk.foldl (fun acc entry =>
            entry.2.foldl (fun acc file =>
              if types.any (fun t => listInfixB t file)
              then acc ++ [pathJoin entry.1 file] else acc) acc) acc) acc
        = acc ++ (walks.map (fun walk =>
            (walk.map (fun entry =>
              (entry.2.filter (fun file => types.any (fun t => listInfixB t file))).map
                (pathJoin entry.1))).flatten)).flatten := by
    intro acc
    have hfun : (fun (acc : List (List ℕ)) (walk : List (List ℕ × List (List ℕ))) =>
        walk.foldl (fun acc entry =>
          entry.2.foldl (fun acc file =>
            if types.any (fun t => listInfixB t file)
            then acc ++ [pathJoin entry.1 file] else acc) acc) acc)
      = fun acc walk => acc ++
          ((walk.map (fun entry =>
            (entry.2.filter (fun file => types.any (fun t => listInfixB t file))).map
              (pathJoin entry.1))).flatten) := by
      funext acc' walk
      exact hinner walk acc'
    rw [hfun, foldl_append_flatten]
  simpa using houter []

end OptiQuasar
